import Mathlib

/-!
Verification development for the pkg-verify package verifier
(src/lib/verify-bak.js, second document: the `Verifier` class and its
helpers `getModulePaths`, `stat`, `resolve`, `read`, `hasBinding`).

The JavaScript source is shallowly embedded:
* JSON values (the output of `JSON.parse`) become the inductive `JSValue`,
  together with JavaScript property access (which throws a TypeError on
  `null`/`undefined`), truthiness, `typeof x === 'object'`, `Object.keys`
  and string conversion.
* The filesystem is a finite association list from absolute paths to
  stat results, read results (the `read` helper folds `readFileSync` and
  `JSON.parse` together, so the model stores the parsed outcome), and
  the presence of a `binding.gyp` file.
* POSIX `Path.resolve` is embedded as `pathResolve2` / `posixNorm`
  (split on '/', process '.', '..' and empty segments).  Only the
  non-Windows branch of the source is embedded; the claims under study
  are all about the POSIX platform.
* The `Verifier` is embedded with a collecting error hook and a
  collecting debug hook (the `options.error` / `options.debug` policy
  where the hooks record their messages), plus a ghost log `reads`
  recording each call of the `read` helper.  A JavaScript TypeError
  (property access on `null`) is the `.typeErr` outcome.  Recursion is
  fuel-indexed; `.oom` marks fuel exhaustion and is proved unreachable
  for sufficient fuel.
-/

/-! ## JavaScript values -/

inductive JSValue where
  | jnull
  | jundefined
  | jbool (b : Bool)
  | jnum (n : Int)
  | jstr (s : String)
  | jarr (elems : List JSValue)
  | jobj (entries : List (String × JSValue))

/-- JavaScript template-literal conversion of a value to a string. -/
def jsToStr : JSValue → String
  | .jnull => "null"
  | .jundefined => "undefined"
  | .jbool b => cond b "true" "false"
  | .jnum n => toString n
  | .jstr s => s
  | .jobj _ => "[object Object]"
  | .jarr xs => jsToStrList xs
where jsToStrList : List JSValue → String
  | [] => ""
  | [x] => jsToStr x
  | x :: y :: xs => jsToStr x ++ "," ++ jsToStrList (y :: xs)

/-- JavaScript truthiness (`!v` is `!(jsTruthy v)`). -/
def jsTruthy : JSValue → Bool
  | .jnull => false
  | .jundefined => false
  | .jbool b => b
  | .jnum n => !(n = 0 : Bool)
  | .jstr s => !(s = "" : Bool)
  | .jarr _ => true
  | .jobj _ => true

/-- JavaScript `typeof v === 'object'` (true for `null`, arrays and objects). -/
def jsIsObjectT : JSValue → Bool
  | .jnull => true
  | .jarr _ => true
  | .jobj _ => true
  | _ => false

/-- Array member access by string key, as in JavaScript `arr[k]`. -/
def jsArrGet : List JSValue → Nat → String → JSValue
  | [], _, _ => .jundefined
  | x :: xs, i, k => if toString i = k then x else jsArrGet xs (i + 1) k

/-- JavaScript member access `v[k]`.  `none` models the thrown TypeError
on accessing a property of `null`/`undefined`; otherwise the result is
the member value, `jundefined` when absent. -/
def jsMember : JSValue → String → Option JSValue
  | .jnull, _ => none
  | .jundefined, _ => none
  | .jobj l, k => some ((l.lookup k).getD .jundefined)
  | .jarr xs, k => some (jsArrGet xs 0 k)
  | _, _ => some .jundefined

/-- `Object.keys` on a parsed JSON value. -/
def jsKeys : JSValue → List String
  | .jobj l => l.map (·.1)
  | .jarr xs => (List.range xs.length).map (fun i => toString i)
  | _ => []

/-- JavaScript strict equality of a value against a string. -/
def jsStrictEqStr : JSValue → String → Bool
  | .jstr s, t => s = t
  | _, _ => false

/-- Test that a value is a JavaScript string (`typeof v === 'string'`). -/
def jsIsString : JSValue → Bool
  | .jstr _ => true
  | _ => false

/-! ## Character-level string helpers

The embedding works on `String.data` so that the path manipulation of
the source (`charCodeAt`, `slice`, split on separators) can be reasoned
about by list induction. -/

/-- Split a character list on a separator character; always returns at
least one (possibly empty) component, like JavaScript `split`. -/
def splitOnCharL (sep : Char) : List Char → List (List Char)
  | [] => [[]]
  | c :: rest =>
    match splitOnCharL sep rest with
    | [] => [[]]
    | a :: tail => if c = sep then [] :: a :: tail else (c :: a) :: tail

/-- Render a component list as an absolute POSIX path: a leading '/'
before every component.  The empty list renders as the empty list of
characters (the root is handled by callers). -/
def joinAbsChars : List (List Char) → List Char
  | [] => []
  | s :: rest => '/' :: (s ++ joinAbsChars rest)

/-- The canonical absolute path with the given segments: "/" for no
segments, otherwise "/s1/s2/...". -/
def joinAbs (segs : List String) : String :=
  match segs with
  | [] => "/"
  | _ => ⟨joinAbsChars (segs.map String.data)⟩

/-- Component-stack normalisation: drop empty and "." components, let
".." pop (a no-op at the root), keep the rest. -/
def normStack : List (List Char) → List (List Char) → List (List Char)
  | stack, [] => stack.reverse
  | stack, comp :: rest =>
    if comp = [] ∨ comp = ['.'] then normStack stack rest
    else if comp = ['.', '.'] then normStack stack.tail rest
    else normStack (comp :: stack) rest

/-- Normalise the characters of an absolute POSIX path. -/
def posixNormChars (cs : List Char) : List Char :=
  match normStack [] (splitOnCharL '/' cs) with
  | [] => ['/']
  | stack => joinAbsChars stack

/-- Normalise an absolute POSIX path (model of Node's normalisation as
performed by `Path.resolve` on an absolute argument). -/
def posixNorm (s : String) : String := ⟨posixNormChars s.data⟩

/-- Model of POSIX `Path.resolve(dir, name)` for the inputs the program
uses: an absolute `name` wins, otherwise `name` is joined onto `dir` and
the result normalised.  (A relative `dir` would involve the process
working directory, which the verifier never relies on; the fallback is a
plain join.) -/
def pathResolve2 (dir nm : String) : String :=
  if nm.data.head? = some '/' then posixNorm nm
  else if dir.data.head? = some '/' then posixNorm ⟨dir.data ++ '/' :: nm.data⟩
  else ⟨dir.data ++ '/' :: nm.data⟩

/-- Model of POSIX `Path.resolve(p)` on the absolute paths the program
feeds it (identity composed with normalisation). -/
def posixResolve1 (s : String) : String :=
  if s.data.head? = some '/' then posixNorm s else s

/-- Model of POSIX `Path.basename`. -/
def posixBasename (s : String) : String :=
  match (splitOnCharL '/' s.data).reverse.find? (fun c => !(c = [] : Bool)) with
  | some c => ⟨c⟩
  | none => ""

/-- Substring containment test on character lists (JavaScript
`indexOf(...) !== -1`). -/
def isPrefixB : List Char → List Char → Bool
  | [], _ => true
  | _ :: _, [] => false
  | p :: ps, c :: cs => p = c && isPrefixB ps cs

def isSubB : List Char → List Char → Bool
  | [], _ => true
  | _ :: _, [] => false
  | pat, c :: rest => isPrefixB pat (c :: rest) || isSubB pat rest

/-- JavaScript `name.indexOf('://') !== -1`. -/
def hasUrlMark (s : String) : Bool := isSubB "://".data s.data

/-! ## Filesystem and environment model -/

inductive StatR where
  | statDir
  | statFile
  | statErr (errno : Int)
deriving DecidableEq

/-- Read results for a package directory's `package.json`: the source's
`read` helper returns -1 on a read failure, -2 on a parse failure, and
the parsed value otherwise. -/
inductive ReadRes where
  | readErr
  | parseErr
  | parsed (v : JSValue)

/-- A finite filesystem snapshot: stat results keyed by path, read
results keyed by the full `package.json` path, and the set of paths at
which `lstat` reports a regular file (used for `binding.gyp`). -/
structure FS where
  statL : List (String × StatR)
  readL : List (String × ReadRes)
  lstatFileL : List String

/-- The integer the source's `stat` helper produces: 1 for a directory,
0 for a file, `e.errno || -1` for an exception.  A path absent from the
snapshot raises ENOENT (errno -2). -/
def statRVal : StatR → Int
  | .statDir => 1
  | .statFile => 0
  | .statErr n => if n = 0 then -1 else n

def jsStat (fs : FS) (p : String) : Int :=
  statRVal ((fs.statL.lookup p).getD (.statErr (-2)))

/-- The source's `read(moddir)`: resolve `moddir/package.json` and read
and parse it. -/
def readPkg (fs : FS) (moddir : String) : ReadRes :=
  (fs.readL.lookup (pathResolve2 moddir "package.json")).getD .readErr

/-- The source's `hasBinding(moddir)`: `lstat` of `moddir/binding.gyp`
succeeds and reports a regular file. -/
def hasBinding (fs : FS) (moddir : String) : Bool :=
  fs.lstatFileL.contains (pathResolve2 moddir "binding.gyp")

/-- Process environment of the POSIX branch: `HOME`, `NODE_PATH` and
the executable path (`none` models an unset variable). -/
structure Env where
  home : Option String
  nodePath : Option String
  execPath : String

/-- The world a verification run sees: a filesystem snapshot, the
environment, and the two external semver predicates (`semver.valid` and
`semver.satisfies`), which the spec treats as a black box. -/
structure World where
  fs : FS
  env : Env
  semverValid : String → Bool
  semverSatisfies : String → String → Bool

/-! ## getModulePaths (POSIX branch) -/

/-- The source's reversed character codes of "node_modules". -/
def nmCodes : List Nat := [115, 101, 108, 117, 100, 111, 109, 95, 101, 100, 111, 110]

/-- One step of the source's suffix-matching automaton: `p` is the
number of matched characters, -1 once the match has failed. -/
def nmStep (p : Int) (c : Char) : Int :=
  if p = -1 then p
  else
    match nmCodes.get? p.toNat with
    | some code => if c.toNat = code then p + 1 else -1
    | none => -1

/-- Run the automaton over a list of characters. -/
def nmRun : Int → List Char → Int
  | p, [] => p
  | p, c :: cs => nmRun (nmStep p c) cs

/-- The scanning loop of the POSIX `getModulePaths`: the first argument
is the not-yet-scanned portion of `from` reversed (the loop runs from
the last character to the first), `seg` holds the characters scanned
since the last separator (in order), `p` is the automaton state, and
`paths` the candidates pushed so far.  At a '/' at index i, the source
pushes `from.slice(0, last) + '/node_modules'` unless the just-finished
segment is literally "node_modules"; `from.slice(0, last)` is exactly
the unscanned prefix, the '/', and the segment. -/
def gmpGo : List Char → List Char → Int → List String → List String
  | [], _, _, paths => paths
  | c :: rest, seg, p, paths =>
    if c = '/' then
      let paths2 :=
        if p ≠ 12 then
          paths ++ [⟨rest.reverse ++ '/' :: (seg ++ '/' :: "node_modules".data)⟩]
        else paths
      gmpGo rest [] 0 paths2
    else gmpGo rest (c :: seg) (nmStep p c) paths

/-- The source's `globalPaths` (POSIX branch): `<prefix>/lib/node`,
preceded by `~/.node_libraries` and `~/.node_modules` when `HOME` is
set and non-empty, preceded by the non-empty `NODE_PATH` entries. -/
def globalPaths (env : Env) : List String :=
  let pref := pathResolve2 (pathResolve2 env.execPath "..") ".."
  let paths := [pathResolve2 (pathResolve2 pref "lib") "node"]
  let paths :=
    match env.home with
    | some h =>
      if h ≠ "" then
        pathResolve2 h ".node_modules" :: pathResolve2 h ".node_libraries" :: paths
      else paths
    | none => paths
  match env.nodePath with
  | some node =>
    if node ≠ "" then
      ((splitOnCharL ':' node.data).map (fun c => (⟨c⟩ : String))).filter
        (fun s => !(s = "" : Bool)) ++ paths
    else paths
  | none => paths

/-- The source's POSIX `getModulePaths(from)`. -/
def getModulePaths (env : Env) (frm : String) : List String :=
  let frm := posixResolve1 frm
  if frm = "/" then "/node_modules" :: globalPaths env
  else gmpGo frm.data.reverse [] 0 [] ++ ["/node_modules"] ++ globalPaths env

/-! ## resolve -/

/-- The candidate loop of the source's `resolve`: skip candidates that
are not existing directories, then return `Path.resolve(path, name)` as
soon as its stat does not fail. -/
def resolveLoop (w : World) (nm : String) : List String → Option String
  | [] => none
  | p :: rest =>
    if jsStat w.fs p < 1 then resolveLoop w nm rest
    else if jsStat w.fs (pathResolve2 p nm) < 0 then resolveLoop w nm rest
    else some (pathResolve2 p nm)

/-- The source's `resolve(name, dirname)`. -/
def resolve (w : World) (nm dirname : String) : Option String :=
  if 0 < nm.length ∧ (nm.data.head? = some '.' ∨ nm.data.head? = some '/') then
    if jsStat w.fs (pathResolve2 dirname nm) < 0 then none
    else some (pathResolve2 dirname nm)
  else resolveLoop w nm (getModulePaths w.env dirname)

/-! ## The Verifier -/

/-- The three dependency fields, in the source's iteration order. -/
def depFields : List String := ["dependencies", "peerDependencies", "optionalDependencies"]

/-- Observable state of one `Verifier` instance with collecting hooks:
the visited-directory cache, the native-binding basenames, the messages
passed to the error hook, the messages passed to the debug hook, and a
ghost log of every `read(moddir)` call. -/
structure VState where
  cache : List String
  bindings : List String
  errors : List String
  debugs : List String
  reads : List String
deriving DecidableEq

def VState.init : VState := ⟨[], [], [], [], []⟩

def errE (msg : String) (st : VState) : VState := { st with errors := st.errors ++ [msg] }

def dbgE (msg : String) (st : VState) : VState := { st with debugs := st.debugs ++ [msg] }

def logRead (moddir : String) (st : VState) : VState := { st with reads := st.reads ++ [moddir] }

/-- Outcome of a verifier step: successful return with the new state,
an uncaught TypeError, or fuel exhaustion (never reached for enough
fuel, see the termination theorems). -/
inductive VR where
  | ok (st : VState)
  | typeErr
  | oom
deriving DecidableEq

/-- The body of the `for (const name of Object.keys(deps))` loop of
`Verifier.verifyDeps`.  `recVP` is the recursion into
`Verifier.verifyPackage`. -/
def depsGo (w : World) (recVP : JSValue → String → VState → VR)
    (field : String) (deps : JSValue) (dirname : String) :
    List String → VState → VR
  | [], st => .ok st
  | nm :: rest, st =>
    if nm.length = 0 then
      depsGo w recVP field deps dirname rest (errE ("Invalid name in " ++ field ++ ".") st)
    else if nm.data.head? = some '@' then
      depsGo w recVP field deps dirname rest st
    else if hasUrlMark nm then
      depsGo w recVP field deps dirname rest st
    else
      match jsMember deps nm with
      | none => .typeErr
      | some expectV =>
        if !jsIsString expectV then
          depsGo w recVP field deps dirname rest
            (errE ("Invalid field in " ++ field ++ ": " ++ nm ++ ".") st)
        else
          let expect := jsToStr expectV
          match resolve w nm dirname with
          | none =>
            if field = "optionalDependencies" then
              depsGo w recVP field deps dirname rest
                (dbgE ("Missing optional dependency: " ++ nm ++ "@" ++ expect ++ ".") st)
            else
              depsGo w recVP field deps dirname rest
                (errE ("Missing dependency: " ++ nm ++ "@" ++ expect ++ ".") st)
          | some moddir =>
            let st := dbgE ("Opening sub package.json in " ++ moddir ++ ".") st
            let st := logRead moddir st
            match readPkg w.fs moddir with
            | .readErr =>
              depsGo w recVP field deps dirname rest
                (errE ("Cannot access package.json: " ++ nm ++ "@" ++ expect ++ ".") st)
            | .parseErr =>
              depsGo w recVP field deps dirname rest
                (errE ("Malformed package.json: " ++ nm ++ "@" ++ expect ++ ".") st)
            | .parsed pkg =>
              if !jsTruthy pkg then
                depsGo w recVP field deps dirname rest
                  (errE ("No version in package.json: " ++ nm ++ "@" ++ expect ++ ".") st)
              else
                match jsMember pkg "version" with
                | none => .typeErr
                | some versionV =>
                  if !jsIsString versionV then
                    depsGo w recVP field deps dirname rest
                      (errE ("No version in package.json: " ++ nm ++ "@" ++ expect ++ ".") st)
                  else
                    let version := jsToStr versionV
                    let st :=
                      if !w.semverValid version then
                        errE ("Invalid version for " ++ nm ++ "@" ++ expect ++ ": "
                          ++ version ++ ".") st
                      else if !w.semverSatisfies version expect then
                        errE ("Unmet dependency version " ++ nm ++ "@" ++ expect ++ ": "
                          ++ version ++ ".") st
                      else st
                    let st := dbgE ("Valid version: " ++ nm ++ "@" ++ version
                      ++ " satisfies " ++ expect ++ ".") st
                    match recVP pkg moddir st with
                    | .ok st2 => depsGo w recVP field deps dirname rest st2
                    | r => r

/-- The `for (const field of fields)` loop of `Verifier.verifyPackage`. -/
def fieldsGo (w : World) (recVP : JSValue → String → VState → VR)
    (pkg : JSValue) (dirname : String) : List String → VState → VR
  | [], st => .ok st
  | field :: rest, st =>
    match jsMember pkg field with
    | none => .typeErr
    | some deps =>
      if !jsTruthy deps then fieldsGo w recVP pkg dirname rest st
      else if !jsIsObjectT deps then
        fieldsGo w recVP pkg dirname rest
          (errE ("Invalid field in package.json: " ++ field ++ ".") st)
      else
        match depsGo w recVP field deps dirname (jsKeys deps) st with
        | .ok st2 => fieldsGo w recVP pkg dirname rest st2
        | r => r

/-- The state updates `Verifier.verifyPackage` performs on entering an
unvisited directory: insert into the cache, record a native binding,
emit the "Verifying package" debug line. -/
def vpEnter (w : World) (pnameV : JSValue) (dirname : String) (st : VState) : VState :=
  let st := { st with cache := st.cache ++ [dirname] }
  let st :=
    if hasBinding w.fs dirname then
      { st with bindings := st.bindings ++ [posixBasename dirname] }
    else st
  dbgE ("Verifying package " ++ jsToStr pnameV ++ " at " ++ dirname ++ ".") st

/-- The source's `Verifier.verifyPackage(pkg, dirname)`, fuel-indexed.
(The source reads `pkg.name` inside the debug call after the cache
insert; the member access is pure and a thrown TypeError discards the
verifier state, so performing the access first is observationally the
same.) -/
def verifyPackage (w : World) : Nat → JSValue → String → VState → VR
  | 0, _, _, _ => .oom
  | fuel + 1, pkg, dirname, st =>
    if st.cache.contains dirname then .ok st
    else
      match jsMember pkg "name" with
      | none => .typeErr
      | some pnameV =>
        match fieldsGo w (fun p d s => verifyPackage w fuel p d s) pkg dirname depFields
            (vpEnter w pnameV dirname st) with
        | .ok st2 => .ok (dbgE ("Package " ++ jsToStr pnameV ++ " is valid!") st2)
        | r => r

/-- The source's `Verifier.verify(name, dirname)` with collecting
hooks.  The return value `this` of the source is not modelled (no claim
concerns it); the observable outcome is the state. -/
def verifierVerify (w : World) (fuel : Nat) (nm dirname : String) (st : VState) : VR :=
  match resolve w nm dirname with
  | none => .ok (errE "Missing package.json!" st)
  | some moddir =>
    let st := dbgE ("Opening main package.json in " ++ moddir ++ ".") st
    let st := logRead moddir st
    match readPkg w.fs moddir with
    | .readErr => .ok (errE "Could not open package.json!" st)
    | .parseErr => .ok (errE "Malformed package.json!" st)
    | .parsed pkg =>
      match jsMember pkg "name" with
      | none => .typeErr
      | some pnameV =>
        if !jsStrictEqStr pnameV nm then
          .ok (errE ("Package name mismatch: " ++ nm ++ " != " ++ jsToStr pnameV ++ ".") st)
        else if !jsTruthy pkg || !jsIsObjectT pkg then
          .ok (errE "Missing package.json!" st)
        else
          let st := dbgE ("Opened package.json for " ++ jsToStr pnameV ++ ".") st
          verifyPackage w fuel pkg moddir st

/-- `verifierVerify` with the `!pkg || typeof pkg !== 'object'` guard
branch removed; proved equal to `verifierVerify` on every input (the
branch is unreachable). -/
def verifierVerifyNoGuard (w : World) (fuel : Nat) (nm dirname : String) (st : VState) : VR :=
  match resolve w nm dirname with
  | none => .ok (errE "Missing package.json!" st)
  | some moddir =>
    let st := dbgE ("Opening main package.json in " ++ moddir ++ ".") st
    let st := logRead moddir st
    match readPkg w.fs moddir with
    | .readErr => .ok (errE "Could not open package.json!" st)
    | .parseErr => .ok (errE "Malformed package.json!" st)
    | .parsed pkg =>
      match jsMember pkg "name" with
      | none => .typeErr
      | some pnameV =>
        if !jsStrictEqStr pnameV nm then
          .ok (errE ("Package name mismatch: " ++ nm ++ " != " ++ jsToStr pnameV ++ ".") st)
        else
          let st := dbgE ("Opened package.json for " ++ jsToStr pnameV ++ ".") st
          verifyPackage w fuel pkg moddir st

/-! ## Spec-side definitions

These definitions follow the wording of the specification (or of the
amended claims) and are compared against the embedded source functions
in refinement theorems; they are not translations of the source. -/

/-- Spec-side: the path exists on disk (as either a file or a
directory). -/
def pathExists (fs : FS) (p : String) : Bool :=
  match (fs.statL.lookup p).getD (.statErr (-2)) with
  | .statDir => true
  | .statFile => true
  | .statErr _ => false

/-- Spec-side: the path is an existing directory. -/
def isDirB (fs : FS) (p : String) : Bool :=
  match (fs.statL.lookup p).getD (.statErr (-2)) with
  | .statDir => true
  | _ => false

/-- Well-formedness of a filesystem snapshot: every recorded stat error
carries a negative errno, as POSIX system calls do. -/
def okErrnoB (fs : FS) : Bool :=
  fs.statL.all (fun pr =>
    match pr.2 with
    | .statErr n => decide (n < 0)
    | _ => true)

/-- Modelled from the amended C2 claim: for a name beginning with '.'
or '/', succeed iff the resolved path exists (file or directory); for a
bare name, return the first search-path candidate that is an existing
directory and under which the name exists (file or directory). -/
def resolveSpecAmended (w : World) (nm dirname : String) : Option String :=
  if 0 < nm.length ∧ (nm.data.head? = some '.' ∨ nm.data.head? = some '/') then
    if pathExists w.fs (pathResolve2 dirname nm) then some (pathResolve2 dirname nm)
    else none
  else
    (getModulePaths w.env dirname).findSome? (fun p =>
      if isDirB w.fs p && pathExists w.fs (pathResolve2 p nm) then
        some (pathResolve2 p nm)
      else none)

/-- Spec-side: the environment-supplied path list, split on the
delimiter with empty segments discarded. -/
def specNodePathEntries (env : Env) : List String :=
  match env.nodePath with
  | some node =>
    if node ≠ "" then
      ((splitOnCharL ':' node.data).map (fun c => (⟨c⟩ : String))).filter
        (fun s => !(s = "" : Bool))
    else []
  | none => []

/-- Spec-side: the user-home legacy library directories. -/
def specHomeLegacy (env : Env) : List String :=
  match env.home with
  | some h =>
    if h ≠ "" then [pathResolve2 h ".node_modules", pathResolve2 h ".node_libraries"]
    else []
  | none => []

/-- Spec-side: the installation prefix's lib/node directory. -/
def specPrefixLibNode (env : Env) : String :=
  pathResolve2 (pathResolve2 (pathResolve2 (pathResolve2 env.execPath "..") "..") "lib") "node"

/-- A well-formed path segment: non-empty, not a dot segment, and free
of separators (what a canonical absolute path is made of). -/
def wfSegB (s : String) : Bool :=
  !(s = "" : Bool) && !(s = "." : Bool) && !(s = ".." : Bool) && !s.data.contains '/'

/-- Modelled from the spec: walking upward through every ancestor
directory by repeatedly stripping the last path segment, from deepest
to shallowest, collect `<ancestor>/node_modules` — omitting the
candidate of an ancestor whose own last segment is literally
"node_modules". -/
def specAncestorCandidates : List String → List String
  | [] => []
  | s :: rest =>
    (if (s :: rest).getLast? = some "node_modules" then []
     else [joinAbs (s :: rest) ++ "/node_modules"]) ++
      specAncestorCandidates (s :: rest).dropLast
termination_by segs => segs.length
decreasing_by
  simp [List.length_dropLast]

/-! ## Concrete worlds used by counterexamples and witnesses -/

def envEx : Env := ⟨none, none, "/usr/bin/node"⟩

/-- An environment with HOME and NODE_PATH set. -/
def envW : Env := ⟨some "/home/u", some ":/g1::g2:", "/usr/bin/node"⟩

/-- A manifest declaring name "b" with one regular dependency. -/
def pkgMismatch : JSValue :=
  .jobj [("name", .jstr "b"), ("dependencies", .jobj [("x", .jstr "1.0.0")])]

/-- World where package "a" is installed but its manifest declares the
name "b" and a dependency "x" that is not installed. -/
def wMismatch : World :=
  ⟨⟨[("/app/node_modules", .statDir), ("/app/node_modules/a", .statDir)],
    [("/app/node_modules/a/package.json", .parsed pkgMismatch)], []⟩,
   envEx, fun _ => true, fun _ _ => true⟩

def pkgCycA : JSValue :=
  .jobj [("name", .jstr "a"), ("version", .jstr "1.0.0"),
         ("dependencies", .jobj [("b", .jstr "1.0.0")])]

def pkgCycB : JSValue :=
  .jobj [("name", .jstr "b"), ("version", .jstr "1.0.0"),
         ("dependencies", .jobj [("a", .jstr "1.0.0")])]

/-- World with a dependency cycle: a depends on b, b depends on a. -/
def wCycle : World :=
  ⟨⟨[("/m", .statDir), ("/m/node_modules", .statDir),
     ("/m/node_modules/a", .statDir), ("/m/node_modules/b", .statDir)],
    [("/m/node_modules/a/package.json", .parsed pkgCycA),
     ("/m/node_modules/b/package.json", .parsed pkgCycB)], []⟩,
   envEx, fun _ => true, fun _ _ => true⟩

/-- World with a single valid installed package "a". -/
def wTwice : World :=
  ⟨⟨[("/app/node_modules", .statDir), ("/app/node_modules/a", .statDir)],
    [("/app/node_modules/a/package.json",
      .parsed (.jobj [("name", .jstr "a"), ("version", .jstr "1.0.0")]))], []⟩,
   envEx, fun _ => true, fun _ _ => true⟩

/-- The state after one top-level verify of "a" from "/app" in
`wTwice`. -/
def stC5a : VState :=
  ⟨["/app/node_modules/a"], [], [],
   ["Opening main package.json in /app/node_modules/a.", "Opened package.json for a.",
    "Verifying package a at /app/node_modules/a.", "Package a is valid!"],
   ["/app/node_modules/a"]⟩

/-- The state after a second top-level verify of "a" in `wTwice`: the
manifest is read again even though the directory is already visited. -/
def stC5b : VState :=
  ⟨["/app/node_modules/a"], [], [],
   ["Opening main package.json in /app/node_modules/a.", "Opened package.json for a.",
    "Verifying package a at /app/node_modules/a.", "Package a is valid!",
    "Opening main package.json in /app/node_modules/a.", "Opened package.json for a."],
   ["/app/node_modules/a", "/app/node_modules/a"]⟩

/-- World where "/a/x" exists as a regular file. -/
def wFile : World :=
  ⟨⟨[("/a", .statDir), ("/a/x", .statFile)], [], []⟩,
   envEx, fun _ => true, fun _ _ => true⟩

/-- World where "/app/node_modules" is an existing directory. -/
def wEmptyName : World :=
  ⟨⟨[("/app/node_modules", .statDir)], [], []⟩,
   envEx, fun _ => true, fun _ _ => true⟩

/-- World with an empty filesystem: nothing resolves. -/
def wScoped : World := ⟨⟨[], [], []⟩, envEx, fun _ => true, fun _ _ => true⟩

/-- A dependency map with a single scoped (hence skipped) name. -/
def depsScoped : JSValue := .jobj [("@s/x", .jstr "1.0.0")]

/-- World whose only manifest parses to the JSON value null. -/
def wNull : World :=
  ⟨⟨[("/app/node_modules", .statDir), ("/app/node_modules/a", .statDir)],
    [("/app/node_modules/a/package.json", .parsed .jnull)], []⟩,
   envEx, fun _ => true, fun _ _ => true⟩

def pkgX : JSValue := .jobj [("name", .jstr "x"), ("version", .jstr "2.0.0")]

/-- A dependency map declaring "x" at range caret-1.0.0. -/
def depsX : JSValue := .jobj [("x", .jstr "^1.0.0")]

/-- World with "x" installed at version 2.0.0 under a semver oracle
that accepts "2.0.0" as valid but satisfies nothing. -/
def wSemver : World :=
  ⟨⟨[("/app/node_modules", .statDir), ("/app/node_modules/x", .statDir)],
    [("/app/node_modules/x/package.json", .parsed pkgX)], []⟩,
   envEx, fun v => v = "2.0.0", fun _ _ => false⟩

/-- A state in which the directory of "x" is already visited. -/
def stC8 : VState := ⟨["/app/node_modules/x"], [], [], [], []⟩

/-- The state produced by one dependency step on "x" in `wSemver` from
the empty state: the unmet-version error is reported and the package is
nevertheless recursively verified (its directory enters the cache). -/
def stC9final : VState :=
  ⟨["/app/node_modules/x"], [], ["Unmet dependency version x@^1.0.0: 2.0.0."],
   ["Opening sub package.json in /app/node_modules/x.",
    "Valid version: x@2.0.0 satisfies ^1.0.0.",
    "Verifying package x at /app/node_modules/x.", "Package x is valid!"],
   ["/app/node_modules/x"]⟩

/-! ## Basic facts about the state operations -/

@[simp]
theorem errE_cache (m : String) (st : VState) : (errE m st).cache = st.cache := rfl

@[simp]
theorem dbgE_cache (m : String) (st : VState) : (dbgE m st).cache = st.cache := rfl

@[simp]
theorem logRead_cache (m : String) (st : VState) : (logRead m st).cache = st.cache := rfl

@[simp]
theorem errE_errors (m : String) (st : VState) : (errE m st).errors = st.errors ++ [m] := rfl

@[simp]
theorem dbgE_errors (m : String) (st : VState) : (dbgE m st).errors = st.errors := rfl

@[simp]
theorem logRead_errors (m : String) (st : VState) : (logRead m st).errors = st.errors := rfl

@[simp]
theorem ite_cache (c : Prop) [Decidable c] (a b : VState) :
    (if c then a else b).cache = if c then a.cache else b.cache := by
  split <;> rfl

@[simp]
theorem vpEnter_cache (w : World) (pnameV : JSValue) (d : String) (st : VState) :
    (vpEnter w pnameV d st).cache = st.cache ++ [d] := by
  unfold vpEnter
  split <;> rfl

theorem lookup_mem {β : Type} {l : List (String × β)} {k : String} {v : β}
    (h : l.lookup k = some v) : (k, v) ∈ l := by
  induction l with
  | nil => simp [List.lookup] at h
  | cons a l ih =>
    rcases a with ⟨ka, va⟩
    rw [List.lookup] at h
    rcases hk : (k == ka) with _ | _
    · rw [hk] at h
      exact List.mem_cons_of_mem _ (ih h)
    · rw [hk] at h
      cases h
      have : k = ka := by simpa using hk
      subst this
      exact List.mem_cons_self _ _

/-! ## The termination measure -/

/-- The finite set of paths whose stat value is non-negative (every
path the resolver can ever return lies in this list). -/
def existPaths (fs : FS) : List String :=
  (fs.statL.filter (fun pr => decide (0 ≤ statRVal pr.2))).map (·.1)

theorem mem_existPaths_of_stat_nonneg {fs : FS} {p : String}
    (h : 0 ≤ jsStat fs p) : p ∈ existPaths fs := by
  unfold jsStat at h
  rcases hl : fs.statL.lookup p with _ | r
  · rw [hl] at h
    simp [statRVal] at h
  · rw [hl] at h
    simp only [Option.getD_some] at h
    refine List.mem_map.mpr ⟨(p, r), List.mem_filter.mpr ⟨lookup_mem hl, by simpa using h⟩, rfl⟩

theorem resolveLoop_stat_nonneg {w : World} {nm : String} {base : String} :
    ∀ {cands : List String}, resolveLoop w nm cands = some base → 0 ≤ jsStat w.fs base := by
  intro cands
  induction cands with
  | nil => intro h; simp [resolveLoop] at h
  | cons p rest ih =>
    intro h
    rw [resolveLoop] at h
    split at h
    · exact ih h
    · split at h
      · exact ih h
      · next h2 =>
        cases h
        omega

theorem resolve_stat_nonneg {w : World} {nm dirname base : String}
    (h : resolve w nm dirname = some base) : 0 ≤ jsStat w.fs base := by
  unfold resolve at h
  split at h
  · split at h
    · exact absurd h (by simp)
    · next h2 => cases h; omega
  · exact resolveLoop_stat_nonneg h

theorem resolve_mem_existPaths {w : World} {nm dirname base : String}
    (h : resolve w nm dirname = some base) : base ∈ existPaths w.fs :=
  mem_existPaths_of_stat_nonneg (resolve_stat_nonneg h)

/-- Number of existing paths not in the given cache: the quantity that
shrinks every time a fresh directory is inserted into the cache. -/
def measureC (w : World) (cache : List String) : Nat :=
  ((existPaths w.fs).filter (fun p => !cache.contains p)).length

/-- The termination measure of a verifier state. -/
def measureW (w : World) (st : VState) : Nat := measureC w st.cache

theorem measureC_mono {w : World} {c c' : List String}
    (h : c ⊆ c') : measureC w c' ≤ measureC w c := by
  apply List.Sublist.length_le
  apply List.monotone_filter_right
  intro a ha
  simp only [Bool.not_eq_true'] at ha ⊢
  rcases hb : c.contains a with _ | _
  · rfl
  · exact absurd (h (by simpa using hb)) (by simpa using ha)

theorem filter_and_ne_length_le (l : List String) (d : String) (p : String → Bool) :
    (l.filter (fun x => p x && !(x = d : Bool))).length ≤ (l.filter p).length := by
  apply List.Sublist.length_le
  apply List.monotone_filter_right
  intro x hx
  exact Bool.and_elim_left hx

theorem filter_and_ne_length_lt (l : List String) (d : String) (p : String → Bool)
    (hd : d ∈ l) (hp : p d = true) :
    (l.filter (fun x => p x && !(x = d : Bool))).length < (l.filter p).length := by
  induction l with
  | nil => simp at hd
  | cons a l ih =>
    rcases List.mem_cons.mp hd with rfl | hd'
    · have h1 : (fun x => p x && !(x = d : Bool)) d = false := by simp [hp]
      have h2 : ((d :: l).filter (fun x => p x && !(x = d : Bool))).length =
          (l.filter (fun x => p x && !(x = d : Bool))).length := by
        simp [List.filter_cons, h1]
      have h3 : ((d :: l).filter p).length = (l.filter p).length + 1 := by
        simp [List.filter_cons, hp]
      rw [h2, h3]
      exact Nat.lt_succ_of_le (filter_and_ne_length_le l d p)
    · by_cases hax : a = d
      · subst hax
        have h1 : (fun x => p x && !(x = a : Bool)) a = false := by simp
        have h2 : ((a :: l).filter (fun x => p x && !(x = a : Bool))).length =
            (l.filter (fun x => p x && !(x = a : Bool))).length := by
          simp [List.filter_cons, h1]
        rw [h2]
        rcases hpa : p a with _ | _
        · have h3 : ((a :: l).filter p).length = (l.filter p).length := by
            simp [List.filter_cons, hpa]
          rw [h3]
          exact ih hd'
        · have h3 : ((a :: l).filter p).length = (l.filter p).length + 1 := by
            simp [List.filter_cons, hpa]
          rw [h3]
          exact Nat.lt_succ_of_le (filter_and_ne_length_le l a p)
      · have ih' := ih hd'
        rcases hpa : p a with _ | _
        · have h1 : (fun x => p x && !(x = d : Bool)) a = false := by simp [hpa]
          have h2 : ((a :: l).filter (fun x => p x && !(x = d : Bool))).length =
              (l.filter (fun x => p x && !(x = d : Bool))).length := by
            simp [List.filter_cons, h1]
          have h3 : ((a :: l).filter p).length = (l.filter p).length := by
            simp [List.filter_cons, hpa]
          rw [h2, h3]
          exact ih'
        · have h1 : (fun x => p x && !(x = d : Bool)) a = true := by simp [hpa, hax]
          have h2 : ((a :: l).filter (fun x => p x && !(x = d : Bool))).length =
              (l.filter (fun x => p x && !(x = d : Bool))).length + 1 := by
            simp [List.filter_cons, h1]
          have h3 : ((a :: l).filter p).length = (l.filter p).length + 1 := by
            simp [List.filter_cons, hpa]
          rw [h2, h3]
          exact Nat.succ_lt_succ ih'

theorem measureC_insert_lt {w : World} {c : List String} {d : String}
    (hex : d ∈ existPaths w.fs) (hnc : c.contains d = false) :
    measureC w (c ++ [d]) < measureC w c := by
  unfold measureC
  have hfe : (fun p => !(c ++ [d]).contains p) =
      (fun p => (!c.contains p) && !(p = d : Bool)) := by
    funext p
    by_cases h1 : p ∈ c <;> by_cases h2 : p = d <;> simp [h1, h2]
  rw [hfe]
  exact filter_and_ne_length_lt _ _ _ hex (by simpa using hnc)

/-! ## Monotonicity of the visited cache -/

theorem depsGo_cache_mono (w : World) (recVP : JSValue → String → VState → VR)
    (Hrec : ∀ p d s s', recVP p d s = .ok s' → s.cache ⊆ s'.cache) :
    ∀ (keys : List String) (field : String) (deps : JSValue) (dirname : String)
      (st st' : VState),
      depsGo w recVP field deps dirname keys st = .ok st' → st.cache ⊆ st'.cache := by
  intro keys
  induction keys with
  | nil =>
    intro field deps dirname st st' h
    simp only [depsGo] at h
    cases h
    exact fun x hx => hx
  | cons nm rest ih =>
    intro field deps dirname st st' h
    simp only [depsGo] at h
    repeat' split at h
    all_goals try exact VR.noConfusion h
    all_goals intro x hx
    all_goals try { exact (ih _ _ _ _ _ h) (by simpa using hx) }
    all_goals try { exact (Hrec _ _ _ _ h) (by simpa using hx) }
    all_goals {
      refine (ih _ _ _ _ _ h) ?_
      exact (Hrec _ _ _ _ (by assumption)) (by simpa using hx)
    }

theorem fieldsGo_cache_mono (w : World) (recVP : JSValue → String → VState → VR)
    (Hrec : ∀ p d s s', recVP p d s = .ok s' → s.cache ⊆ s'.cache) :
    ∀ (fl : List String) (pkg : JSValue) (dirname : String) (st st' : VState),
      fieldsGo w recVP pkg dirname fl st = .ok st' → st.cache ⊆ st'.cache := by
  intro fl
  induction fl with
  | nil =>
    intro pkg dirname st st' h
    simp only [fieldsGo] at h
    cases h
    exact fun x hx => hx
  | cons field rest ih =>
    intro pkg dirname st st' h
    simp only [fieldsGo] at h
    repeat' split at h
    all_goals try exact VR.noConfusion h
    all_goals intro x hx
    all_goals try { exact (ih _ _ _ _ h) (by simpa using hx) }
    all_goals try { exact (depsGo_cache_mono w recVP Hrec _ _ _ _ _ _ h) (by simpa using hx) }
    all_goals {
      refine (ih _ _ _ _ h) ?_
      exact (depsGo_cache_mono w recVP Hrec _ _ _ _ _ _ (by assumption)) (by simpa using hx)
    }

theorem vp_cache_mono (w : World) :
    ∀ (fuel : Nat) (pkg : JSValue) (d : String) (s s' : VState),
      verifyPackage w fuel pkg d s = .ok s' → s.cache ⊆ s'.cache := by
  intro fuel
  induction fuel with
  | zero =>
    intro pkg d s s' h
    simp only [verifyPackage] at h
    exact VR.noConfusion h
  | succ f ih =>
    intro pkg d s s' h
    simp only [verifyPackage] at h
    split at h
    · cases h; exact fun x hx => hx
    · rcases hm : jsMember pkg "name" with _ | pnameV
      · simp only [hm] at h
        exact VR.noConfusion h
      · simp only [hm] at h
        rcases hfg : fieldsGo w (fun p d s => verifyPackage w f p d s) pkg d depFields
            (vpEnter w pnameV d s) with st2 | _ | _ <;> simp only [hfg] at h
        · cases h
          have h1 := fieldsGo_cache_mono w _ (fun p d s s' hh => ih p d s s' hh) _ _ _ _ _ hfg
          intro x hx
          have hx2 : x ∈ (vpEnter w pnameV d s).cache := by
            simp
            exact Or.inl hx
          simpa using h1 hx2
        · exact VR.noConfusion h
        · exact VR.noConfusion h

/-- A directory already in the cache makes `verifyPackage` an exact
no-op: the state is returned unchanged. -/
theorem vp_cached_noop (w : World) (fuel : Nat) (pkg : JSValue) (d : String) (st : VState)
    (hfuel : 1 ≤ fuel) (hc : st.cache.contains d = true) :
    verifyPackage w fuel pkg d st = .ok st := by
  rcases fuel with _ | f
  · omega
  · have hm : d ∈ st.cache := by simpa using hc
    simp [verifyPackage, hm]

/-- A successful `verifyPackage` leaves its directory in the cache. -/
theorem vp_marks (w : World) (fuel : Nat) (pkg : JSValue) (d : String) (s s' : VState)
    (hfuel : 1 ≤ fuel) (h : verifyPackage w fuel pkg d s = .ok s') : d ∈ s'.cache := by
  rcases fuel with _ | f
  · omega
  · simp only [verifyPackage] at h
    split at h
    · next hc =>
      cases h
      simpa using hc
    · rcases hm : jsMember pkg "name" with _ | pnameV
      · simp only [hm] at h
        exact VR.noConfusion h
      · simp only [hm] at h
        rcases hfg : fieldsGo w (fun p d s => verifyPackage w f p d s) pkg d depFields
            (vpEnter w pnameV d s) with st2 | _ | _ <;> simp only [hfg] at h
        · cases h
          have h1 := fieldsGo_cache_mono w _
            (fun p d s s' hh => vp_cache_mono w f p d s s' hh) _ _ _ _ _ hfg
          have hx2 : d ∈ (vpEnter w pnameV d s).cache := by simp
          simpa using h1 hx2
        · exact VR.noConfusion h
        · exact VR.noConfusion h

/-! ## Nodup preservation for the visited cache -/

theorem depsGo_nodup (w : World) (recVP : JSValue → String → VState → VR)
    (Hnd : ∀ p d s s', s.cache.Nodup → recVP p d s = .ok s' → s'.cache.Nodup) :
    ∀ (keys : List String) (field : String) (deps : JSValue) (dirname : String)
      (st st' : VState), st.cache.Nodup →
      depsGo w recVP field deps dirname keys st = .ok st' → st'.cache.Nodup := by
  intro keys
  induction keys with
  | nil =>
    intro field deps dirname st st' hnd h
    simp only [depsGo] at h
    cases h
    exact hnd
  | cons nm rest ih =>
    intro field deps dirname st st' hnd h
    simp only [depsGo] at h
    repeat' split at h
    all_goals try exact VR.noConfusion h
    all_goals try { exact ih _ _ _ _ _ (by simpa using hnd) h }
    all_goals try { exact Hnd _ _ _ _ (by simpa using hnd) h }
    all_goals {
      refine ih _ _ _ _ _ ?_ h
      refine Hnd _ _ _ _ ?_ (by assumption)
      simpa using hnd
    }

theorem fieldsGo_nodup (w : World) (recVP : JSValue → String → VState → VR)
    (Hnd : ∀ p d s s', s.cache.Nodup → recVP p d s = .ok s' → s'.cache.Nodup) :
    ∀ (fl : List String) (pkg : JSValue) (dirname : String) (st st' : VState),
      st.cache.Nodup →
      fieldsGo w recVP pkg dirname fl st = .ok st' → st'.cache.Nodup := by
  intro fl
  induction fl with
  | nil =>
    intro pkg dirname st st' hnd h
    simp only [fieldsGo] at h
    cases h
    exact hnd
  | cons field rest ih =>
    intro pkg dirname st st' hnd h
    simp only [fieldsGo] at h
    repeat' split at h
    all_goals try exact VR.noConfusion h
    all_goals try { exact ih _ _ _ _ (by simpa using hnd) h }
    all_goals try { exact depsGo_nodup w recVP Hnd _ _ _ _ _ _ (by simpa using hnd) h }
    all_goals {
      refine ih _ _ _ _ ?_ h
      refine depsGo_nodup w recVP Hnd _ _ _ _ _ _ ?_ (by assumption)
      simpa using hnd
    }

theorem vp_nodup (w : World) :
    ∀ (fuel : Nat) (pkg : JSValue) (d : String) (s s' : VState), s.cache.Nodup →
      verifyPackage w fuel pkg d s = .ok s' → s'.cache.Nodup := by
  intro fuel
  induction fuel with
  | zero =>
    intro pkg d s s' hnd h
    simp only [verifyPackage] at h
    exact VR.noConfusion h
  | succ f ih =>
    intro pkg d s s' hnd h
    simp only [verifyPackage] at h
    split at h
    · cases h; exact hnd
    · next hc =>
      rcases hm : jsMember pkg "name" with _ | pnameV
      · simp only [hm] at h
        exact VR.noConfusion h
      · simp only [hm] at h
        rcases hfg : fieldsGo w (fun p d s => verifyPackage w f p d s) pkg d depFields
            (vpEnter w pnameV d s) with st2 | _ | _ <;> simp only [hfg] at h
        · cases h
          have hin : (vpEnter w pnameV d s).cache.Nodup := by
            simp only [vpEnter_cache]
            have hd : d ∉ s.cache := by simpa using hc
            simp [List.nodup_append, hnd, hd]
          have := fieldsGo_nodup w _ (fun p d s s' hn hh => ih p d s s' hn hh)
            _ _ _ _ _ hin hfg
          simpa using this
        · exact VR.noConfusion h
        · exact VR.noConfusion h

/-! ## Fuel sufficiency: the verifier cannot run out of fuel -/

theorem depsGo_ne_oom (w : World) (recVP : JSValue → String → VState → VR) (base : List String)
    (Hmono : ∀ p d s s', recVP p d s = .ok s' → s.cache ⊆ s'.cache)
    (Hok : ∀ p d s, d ∈ existPaths w.fs → base ⊆ s.cache → recVP p d s ≠ .oom) :
    ∀ (keys : List String) (field : String) (deps : JSValue) (dirname : String)
      (st : VState), base ⊆ st.cache →
      depsGo w recVP field deps dirname keys st ≠ .oom := by
  intro keys
  induction keys with
  | nil =>
    intro field deps dirname st hsub hcontra
    simp only [depsGo] at hcontra
    exact VR.noConfusion hcontra
  | cons nm rest ih =>
    intro field deps dirname st hsub hcontra
    simp only [depsGo] at hcontra
    repeat' split at hcontra
    all_goals try exact VR.noConfusion hcontra
    all_goals try { exact ih _ _ _ _ (by simpa using hsub) hcontra }
    all_goals try {
      refine ih _ _ _ _ ?_ hcontra
      refine List.Subset.trans ?_ (Hmono _ _ _ _ (by assumption))
      simpa using hsub
    }
    all_goals {
      refine (Hok _ _ _ (resolve_mem_existPaths (by assumption)) ?_) hcontra
      simpa using hsub
    }

theorem fieldsGo_ne_oom (w : World) (recVP : JSValue → String → VState → VR)
    (base : List String)
    (Hmono : ∀ p d s s', recVP p d s = .ok s' → s.cache ⊆ s'.cache)
    (Hok : ∀ p d s, d ∈ existPaths w.fs → base ⊆ s.cache → recVP p d s ≠ .oom) :
    ∀ (fl : List String) (pkg : JSValue) (dirname : String) (st : VState),
      base ⊆ st.cache →
      fieldsGo w recVP pkg dirname fl st ≠ .oom := by
  intro fl
  induction fl with
  | nil =>
    intro pkg dirname st hsub hcontra
    simp only [fieldsGo] at hcontra
    exact VR.noConfusion hcontra
  | cons field rest ih =>
    intro pkg dirname st hsub hcontra
    simp only [fieldsGo] at hcontra
    repeat' split at hcontra
    all_goals try exact VR.noConfusion hcontra
    all_goals try { exact ih _ _ _ (by simpa using hsub) hcontra }
    all_goals try {
      refine ih _ _ _ ?_ hcontra
      refine List.Subset.trans ?_
        (depsGo_cache_mono w recVP Hmono _ _ _ _ _ _ (by assumption))
      simpa using hsub
    }
    all_goals {
      refine depsGo_ne_oom w recVP base Hmono Hok _ _ _ _ _ ?_ hcontra
      simpa using hsub
    }

theorem vp_ne_oom_aux (w : World) :
    ∀ (fuel : Nat) (pkg : JSValue) (d : String) (st : VState),
      d ∈ existPaths w.fs → measureW w st + 1 ≤ fuel →
      verifyPackage w fuel pkg d st ≠ .oom := by
  intro fuel
  induction fuel with
  | zero =>
    intro pkg d st hex hfu
    omega
  | succ f ih =>
    intro pkg d st hex hfu
    simp only [verifyPackage]
    split
    · exact fun hh => VR.noConfusion hh
    · next hc =>
      rcases hm : jsMember pkg "name" with _ | pnameV
      · exact fun hh => VR.noConfusion hh
      · have hdec : measureC w (st.cache ++ [d]) < measureC w st.cache :=
          measureC_insert_lt hex (by simpa using hc)
        have Hok : ∀ p dd s, dd ∈ existPaths w.fs → st.cache ++ [d] ⊆ s.cache →
            verifyPackage w f p dd s ≠ .oom := by
          intro p dd s hdex hss
          apply ih p dd s hdex
          have h1 : measureC w s.cache ≤ measureC w (st.cache ++ [d]) := measureC_mono hss
          unfold measureW at hfu ⊢
          omega
        rcases hfg : fieldsGo w (fun p d s => verifyPackage w f p d s) pkg d depFields
            (vpEnter w pnameV d st) with st2 | _ | _ <;> simp only [hfg]
        · exact fun hh => VR.noConfusion hh
        · exact fun hh => VR.noConfusion hh
        · exfalso
          refine fieldsGo_ne_oom w _ (st.cache ++ [d])
            (fun p dd s s' hh => vp_cache_mono w f p dd s s' hh) Hok _ _ _ _ ?_ hfg
          simp

/-- With fuel at least the measure plus two, `verifyPackage` never runs
out of fuel, whatever the starting directory. -/
theorem vp_ne_oom (w : World) (fuel : Nat) (pkg : JSValue) (d : String) (st : VState)
    (hfu : measureW w st + 2 ≤ fuel) : verifyPackage w fuel pkg d st ≠ .oom := by
  rcases fuel with _ | f
  · omega
  · simp only [verifyPackage]
    split
    · exact fun hh => VR.noConfusion hh
    · next hc =>
      rcases hm : jsMember pkg "name" with _ | pnameV
      · exact fun hh => VR.noConfusion hh
      · have Hok : ∀ p dd s, dd ∈ existPaths w.fs → st.cache ++ [d] ⊆ s.cache →
            verifyPackage w f p dd s ≠ .oom := by
          intro p dd s hdex hss
          apply vp_ne_oom_aux w f p dd s hdex
          have h1 : measureC w s.cache ≤ measureC w (st.cache ++ [d]) := measureC_mono hss
          have h2 : measureC w (st.cache ++ [d]) ≤ measureC w st.cache :=
            measureC_mono (by intro x hx; exact List.mem_append.mpr (Or.inl hx))
          unfold measureW at hfu ⊢
          omega
        rcases hfg : fieldsGo w (fun p d s => verifyPackage w f p d s) pkg d depFields
            (vpEnter w pnameV d st) with st2 | _ | _ <;> simp only [hfg]
        · exact fun hh => VR.noConfusion hh
        · exact fun hh => VR.noConfusion hh
        · exfalso
          refine fieldsGo_ne_oom w _ (st.cache ++ [d])
            (fun p dd s s' hh => vp_cache_mono w f p dd s s' hh) Hok _ _ _ _ ?_ hfg
          simp

/-! ## Strict-equality helpers -/

theorem jsStrictEqStr_true {v : JSValue} {nm : String}
    (h : jsStrictEqStr v nm = true) : v = .jstr nm := by
  cases v <;> simp_all [jsStrictEqStr]

theorem member_name_str {pkg : JSValue} {nm : String}
    (h : jsMember pkg "name" = some (.jstr nm)) :
    jsTruthy pkg = true ∧ jsIsObjectT pkg = true := by
  cases pkg <;> simp_all [jsMember, jsTruthy, jsIsObjectT]

/-! ## Claim C10 -/

/-- C10: in `Verifier.verify` the declared-name comparison reads
`pkg.name` before the falsy/non-object guard, so a manifest file that
parses to the JSON value `null` makes `verify` raise an uncaught
TypeError instead of reporting through the error hook; and the later
guard branch (`'Missing package.json!'` for a falsy or non-object
manifest) is unreachable for every input: `verify` equals the variant
with that branch deleted. -/
theorem claim_c10_null_manifest_type_error (w : World) (fuel : Nat) (nm dirname : String)
    (st : VState) :
    (∀ moddir, resolve w nm dirname = some moddir →
      readPkg w.fs moddir = .parsed .jnull →
      verifierVerify w fuel nm dirname st = .typeErr)
    ∧ verifierVerify w fuel nm dirname st = verifierVerifyNoGuard w fuel nm dirname st := by
  constructor
  · intro moddir h1 h2
    simp [verifierVerify, h1, h2, jsMember]
  · simp only [verifierVerify, verifierVerifyNoGuard]
    rcases hres : resolve w nm dirname with _ | moddir <;> simp only [hres] <;> try rfl
    rcases hread : readPkg w.fs moddir with _ | _ | pkg <;> simp only [hread] <;> try rfl
    rcases hm : jsMember pkg "name" with _ | pnameV <;> simp only [hm] <;> try rfl
    rcases hse : jsStrictEqStr pnameV nm with _ | _
    · simp [hse]
    · have hv := jsStrictEqStr_true hse
      subst hv
      have hmm := member_name_str hm
      simp [hse, hmm.1, hmm.2]

theorem claim_c10_witness :
    verifierVerify wNull 5 "a" "/app" VState.init = .typeErr ∧
    verifierVerify wNull 5 "a" "/app" VState.init =
      verifierVerifyNoGuard wNull 5 "a" "/app" VState.init :=
  ⟨(claim_c10_null_manifest_type_error wNull 5 "a" "/app" VState.init).1
      "/app/node_modules/a" (by decide) rfl,
   (claim_c10_null_manifest_type_error wNull 5 "a" "/app" VState.init).2⟩

/-! ## Claim C1 -/

/-- C1 (amended): when the loaded manifest's declared name differs from
the requested package name, the NameMismatch error is reported through
the error hook and `verify` returns immediately: the state gains only
the mismatch error (plus the debug line and the manifest read that have
already happened); in particular the cache is untouched, so the
recursive verification step is not invoked for the mismatched
package. -/
theorem claim_c1_mismatch_reports_and_returns (w : World) (fuel : Nat)
    (nm dirname : String) (st : VState) (moddir : String) (pkg pnameV : JSValue)
    (h1 : resolve w nm dirname = some moddir)
    (h2 : readPkg w.fs moddir = .parsed pkg)
    (h3 : jsMember pkg "name" = some pnameV)
    (h4 : jsStrictEqStr pnameV nm = false) :
    verifierVerify w fuel nm dirname st =
      .ok { st with
        errors := st.errors ++
          ["Package name mismatch: " ++ nm ++ " != " ++ jsToStr pnameV ++ "."],
        debugs := st.debugs ++ ["Opening main package.json in " ++ moddir ++ "."],
        reads := st.reads ++ [moddir] } := by
  simp only [verifierVerify, h1, h2, h3, h4]
  rcases st with ⟨c, b, e, dg, r⟩
  simp [errE, dbgE, logRead]

/-- C1 counterexample: in `wMismatch` the manifest of "a" declares the
name "b" and a regular dependency "x" that does not resolve; `verify`
reports only the mismatch, the cache stays empty (the recursive step
always inserts the directory, so it was not invoked) and no
MissingDependency error for "x" is reported, contradicting the claim
that the mismatched package's dependency fields are still verified. -/
theorem claim_c1_counterexample :
    verifierVerify wMismatch 10 "a" "/app" VState.init =
      .ok ⟨[], [], ["Package name mismatch: a != b."],
           ["Opening main package.json in /app/node_modules/a."],
           ["/app/node_modules/a"]⟩
    ∧ resolve wMismatch "x" "/app/node_modules/a" = none := by
  constructor
  · decide
  · decide

theorem claim_c1_witness :
    jsStrictEqStr (.jstr "b") "a" = false ∧
    verifierVerify wMismatch 10 "a" "/app" VState.init =
      .ok { VState.init with
        errors := VState.init.errors ++
          ["Package name mismatch: " ++ "a" ++ " != " ++ jsToStr (.jstr "b") ++ "."],
        debugs := VState.init.debugs ++
          ["Opening main package.json in " ++ "/app/node_modules/a" ++ "."],
        reads := VState.init.reads ++ ["/app/node_modules/a"] } :=
  ⟨by decide,
   claim_c1_mismatch_reports_and_returns wMismatch 10 "a" "/app" VState.init
     "/app/node_modules/a" pkgMismatch (.jstr "b") (by decide) rfl rfl (by decide)⟩

/-! ## Claim C4 -/

/-- C4: verification terminates on every finite filesystem, cyclic and
diamond graphs included: with fuel at least the number of existing
unvisited paths plus two, `verifyPackage` never exhausts its fuel; the
visited cache never acquires duplicates (each unique directory's
dependency fields are processed at most once, since they are processed
exactly when the directory is inserted); and a directory already in the
visited cache is an exact no-op. -/
theorem claim_c4_termination_and_at_most_once (w : World) (pkg : JSValue)
    (dirname : String) (st : VState) (fuel : Nat) (hnd : st.cache.Nodup) :
    (measureW w st + 2 ≤ fuel → verifyPackage w fuel pkg dirname st ≠ .oom)
    ∧ (∀ st', verifyPackage w fuel pkg dirname st = .ok st' → st'.cache.Nodup)
    ∧ (1 ≤ fuel → st.cache.contains dirname = true →
        verifyPackage w fuel pkg dirname st = .ok st) :=
  ⟨fun h => vp_ne_oom w fuel pkg dirname st h,
   fun st' h => vp_nodup w fuel pkg dirname st st' hnd h,
   fun h1 h2 => vp_cached_noop w fuel pkg dirname st h1 h2⟩

theorem claim_c4_witness :
    VState.init.cache.Nodup ∧ measureW wCycle VState.init + 2 ≤ 10 ∧
    verifyPackage wCycle 10 pkgCycA "/m/node_modules/a" VState.init ≠ .oom :=
  ⟨by decide, by decide,
   (claim_c4_termination_and_at_most_once wCycle pkgCycA "/m/node_modules/a"
     VState.init 10 (by decide)).1 (by decide)⟩

/-! ## Claim C5 -/

/-- C5 (amended): once a directory is in the visited cache, the
recursive verification step (`verifyPackage`) on it is an exact no-op —
its dependency fields are never re-processed and the state is returned
unchanged.  (Its manifest file can still be re-read: both the top-level
`verify` and the per-dependency step call `read` before the visited
check, see the counterexample.) -/
theorem claim_c5_visited_noop (w : World) (fuel : Nat) (pkg : JSValue) (d : String)
    (st : VState) (hfuel : 1 ≤ fuel) (hc : st.cache.contains d = true) :
    verifyPackage w fuel pkg d st = .ok st :=
  vp_cached_noop w fuel pkg d st hfuel hc

/-- C5 counterexample: after one top-level verify of "a" its directory
is in the visited cache, yet a second top-level verify on the same
verifier state reads that directory's manifest file again — the read
log ends up holding the directory twice, contradicting the claim that
a visited directory is never re-read. -/
theorem claim_c5_counterexample :
    verifierVerify wTwice 5 "a" "/app" VState.init = .ok stC5a ∧
    stC5a.cache.contains "/app/node_modules/a" = true ∧
    verifierVerify wTwice 5 "a" "/app" stC5a = .ok stC5b ∧
    stC5b.reads.count "/app/node_modules/a" = 2 := by
  refine ⟨by decide, by decide, by decide, by decide⟩

theorem claim_c5_witness :
    (1:Nat) ≤ 5 ∧ stC5a.cache.contains "/app/node_modules/a" = true ∧
    verifyPackage wTwice 5 (.jobj [("name", .jstr "a"), ("version", .jstr "1.0.0")])
      "/app/node_modules/a" stC5a = .ok stC5a :=
  ⟨by decide, by decide,
   claim_c5_visited_noop wTwice 5 (.jobj [("name", .jstr "a"), ("version", .jstr "1.0.0")])
     "/app/node_modules/a" stC5a (by decide) (by decide)⟩

/-! ## Claim C7 -/

/-- C7 (amended): for a dependency declaration that reaches resolution
(non-empty name, not scoped, no URL marker, string-valued range) and
whose name does not resolve from the dependent's directory: if the
field is optionalDependencies only a debug trace is recorded (no
error-level event) and the loop continues; for any other field a
MissingDependency error is reported and the loop continues. -/
theorem claim_c7_missing_dep_policy (w : World)
    (recVP : JSValue → String → VState → VR) (field nm : String)
    (rest : List String) (deps : JSValue) (dirname : String) (st : VState)
    (expectS : String)
    (h0 : ¬ nm.length = 0) (h1 : ¬ nm.data.head? = some '@')
    (h2 : ¬ hasUrlMark nm = true)
    (h3 : jsMember deps nm = some (.jstr expectS))
    (h4 : resolve w nm dirname = none) :
    (field = "optionalDependencies" →
      depsGo w recVP field deps dirname (nm :: rest) st =
        depsGo w recVP field deps dirname rest
          (dbgE ("Missing optional dependency: " ++ nm ++ "@" ++ expectS ++ ".") st))
    ∧ (¬ field = "optionalDependencies" →
      depsGo w recVP field deps dirname (nm :: rest) st =
        depsGo w recVP field deps dirname rest
          (errE ("Missing dependency: " ++ nm ++ "@" ++ expectS ++ ".") st)) := by
  constructor <;> intro hf <;>
    simp [depsGo, h0, h1, h2, h3, h4, hf, jsIsString, jsToStr]

/-- C7 counterexample: a scoped name in the regular dependencies field
that does not resolve is skipped silently — no MissingDependency error
is reported and no debug trace is recorded, contradicting the claim as
stated for arbitrary unresolvable declarations. -/
theorem claim_c7_counterexample :
    resolve wScoped "@s/x" "/app" = none ∧
    depsGo wScoped (fun p d s => verifyPackage wScoped 5 p d s) "dependencies"
      depsScoped "/app" ["@s/x"] VState.init = .ok VState.init := by
  constructor
  · decide
  · decide

theorem claim_c7_witness :
    resolve wScoped "y" "/app" = none ∧
    depsGo wScoped (fun p d s => verifyPackage wScoped 5 p d s) "dependencies"
        (.jobj [("y", .jstr "1.0.0")]) "/app" ["y"] VState.init =
      depsGo wScoped (fun p d s => verifyPackage wScoped 5 p d s) "dependencies"
        (.jobj [("y", .jstr "1.0.0")]) "/app" []
        (errE ("Missing dependency: " ++ "y" ++ "@" ++ "1.0.0" ++ ".") VState.init) :=
  ⟨by decide,
   (claim_c7_missing_dep_policy wScoped (fun p d s => verifyPackage wScoped 5 p d s)
     "dependencies" "y" [] (.jobj [("y", .jstr "1.0.0")]) "/app" VState.init "1.0.0"
     (by decide) (by decide) (by decide) rfl (by decide)).2 (by decide)⟩

/-! ## Claim C8 -/

/-- C8: for a resolved dependency whose manifest has a string version
and whose directory is already verified (so the trailing recursion is a
no-op and the error delta is exactly the version checks'): if the
version is not valid per the external check, exactly the InvalidVersion
error is reported, whatever `satisfies` would say (the range check is
not performed); otherwise exactly the UnmetVersion error is reported
iff `satisfies` is false; and no error is added when both checks
pass. -/
theorem claim_c8_version_checks (w : World) (fuel : Nat) (field nm : String)
    (rest : List String) (deps : JSValue) (dirname : String) (st : VState)
    (expectS moddir : String) (pkg : JSValue) (version : String)
    (hfuel : 1 ≤ fuel)
    (h0 : ¬ nm.length = 0) (h1 : ¬ nm.data.head? = some '@')
    (h2 : ¬ hasUrlMark nm = true)
    (h3 : jsMember deps nm = some (.jstr expectS))
    (h4 : resolve w nm dirname = some moddir)
    (h5 : readPkg w.fs moddir = .parsed pkg)
    (h6 : jsTruthy pkg = true)
    (h7 : jsMember pkg "version" = some (.jstr version))
    (h8 : st.cache.contains moddir = true) :
    depsGo w (fun p d s => verifyPackage w fuel p d s) field deps dirname (nm :: rest) st =
      depsGo w (fun p d s => verifyPackage w fuel p d s) field deps dirname rest
        { st with
          errors := st.errors ++
            (if w.semverValid version = false then
              ["Invalid version for " ++ nm ++ "@" ++ expectS ++ ": " ++ version ++ "."]
            else if w.semverSatisfies version expectS = false then
              ["Unmet dependency version " ++ nm ++ "@" ++ expectS ++ ": " ++ version ++ "."]
            else []),
          debugs := st.debugs ++
            ["Opening sub package.json in " ++ moddir ++ ".",
             "Valid version: " ++ nm ++ "@" ++ version ++ " satisfies " ++ expectS ++ "."],
          reads := st.reads ++ [moddir] } := by
  simp only [depsGo, h0, h1, h2, h3, h4, h5, h6, h7, jsIsString, jsToStr,
    Bool.not_true, Bool.not_false, if_false, if_true]
  rcases hv : w.semverValid version with _ | _ <;>
    rcases hs : w.semverSatisfies version expectS with _ | _ <;>
      simp only [hv, hs, Bool.not_true, Bool.not_false, if_true, if_false] <;>
      (rw [vp_cached_noop w fuel pkg moddir _ hfuel (by simpa using h8)];
       rcases st with ⟨c, b, e, dg, r⟩;
       simp [errE, dbgE, logRead, hv, hs])

theorem claim_c8_witness :
    stC8.cache.contains "/app/node_modules/x" = true ∧
    wSemver.semverValid "2.0.0" = true ∧
    wSemver.semverSatisfies "2.0.0" "^1.0.0" = false ∧
    depsGo wSemver (fun p d s => verifyPackage wSemver 3 p d s) "dependencies"
        depsX "/app" ["x"] stC8 =
      depsGo wSemver (fun p d s => verifyPackage wSemver 3 p d s) "dependencies"
        depsX "/app" []
        { stC8 with
          errors := stC8.errors ++
            (if wSemver.semverValid "2.0.0" = false then
              ["Invalid version for " ++ "x" ++ "@" ++ "^1.0.0" ++ ": " ++ "2.0.0" ++ "."]
            else if wSemver.semverSatisfies "2.0.0" "^1.0.0" = false then
              ["Unmet dependency version " ++ "x" ++ "@" ++ "^1.0.0" ++ ": "
                ++ "2.0.0" ++ "."]
            else []),
          debugs := stC8.debugs ++
            ["Opening sub package.json in " ++ "/app/node_modules/x" ++ ".",
             "Valid version: " ++ "x" ++ "@" ++ "2.0.0" ++ " satisfies " ++ "^1.0.0" ++ "."],
          reads := stC8.reads ++ ["/app/node_modules/x"] } :=
  ⟨by decide, by decide, by decide,
   claim_c8_version_checks wSemver 3 "dependencies" "x" [] depsX "/app" stC8
     "^1.0.0" "/app/node_modules/x" pkgX "2.0.0"
     (by decide) (by decide) (by decide) (by decide) rfl (by decide) rfl (by decide) rfl
     (by decide)⟩

/-! ## Claim C9 -/

/-- C9: for every resolved dependency whose manifest loads with a
string version, the recursive verification step is still invoked on the
dependency whatever the version checks said: if the dependency loop
returns successfully, the dependency's directory is in the final
visited cache (the recursion always inserts or finds it there). -/
theorem claim_c9_errors_do_not_block_recursion (w : World) (fuel : Nat)
    (field nm : String) (rest : List String) (deps : JSValue) (dirname : String)
    (st : VState) (expectS moddir : String) (pkg : JSValue) (version : String)
    (hfuel : 1 ≤ fuel)
    (h0 : ¬ nm.length = 0) (h1 : ¬ nm.data.head? = some '@')
    (h2 : ¬ hasUrlMark nm = true)
    (h3 : jsMember deps nm = some (.jstr expectS))
    (h4 : resolve w nm dirname = some moddir)
    (h5 : readPkg w.fs moddir = .parsed pkg)
    (h6 : jsTruthy pkg = true)
    (h7 : jsMember pkg "version" = some (.jstr version)) :
    ∀ stF, depsGo w (fun p d s => verifyPackage w fuel p d s) field deps dirname
      (nm :: rest) st = .ok stF → moddir ∈ stF.cache := by
  intro stF h
  simp only [depsGo, h0, h1, h2, h3, h4, h5, h6, h7, jsIsString, jsToStr,
    Bool.not_true, Bool.not_false, if_false, if_true] at h
  repeat' split at h
  all_goals try exact VR.noConfusion h
  all_goals try exact absurd (by assumption : (false : Bool) = true) Bool.false_ne_true
  all_goals try { exact vp_marks w fuel pkg moddir _ _ hfuel h }
  all_goals {
    have hmark := vp_marks w fuel pkg moddir _ _ hfuel (by assumption)
    have hmono := depsGo_cache_mono w _
      (fun p d s s' hh => vp_cache_mono w fuel p d s s' hh) _ _ _ _ _ _ h
    exact hmono hmark
  }

theorem claim_c9_witness :
    (1:Nat) ≤ 3 ∧ resolve wSemver "x" "/app" = some "/app/node_modules/x" ∧
    wSemver.semverSatisfies "2.0.0" "^1.0.0" = false ∧
    depsGo wSemver (fun p d s => verifyPackage wSemver 3 p d s) "dependencies"
      depsX "/app" ["x"] VState.init = .ok stC9final ∧
    "/app/node_modules/x" ∈ stC9final.cache :=
  ⟨by decide, by decide, by decide, by decide,
   claim_c9_errors_do_not_block_recursion wSemver 3 "dependencies" "x" [] depsX
     "/app" VState.init "^1.0.0" "/app/node_modules/x" pkgX "2.0.0"
     (by decide) (by decide) (by decide) (by decide) rfl (by decide) rfl (by decide) rfl
     stC9final (by decide)⟩

/-! ## Stat characterisation under well-formed errnos -/

theorem okErrno_lookup {fs : FS} {p : String} {n : Int}
    (hok : okErrnoB fs = true) (h : fs.statL.lookup p = some (.statErr n)) : n < 0 := by
  have hm := lookup_mem h
  have h2 := (List.all_eq_true.mp hok) _ hm
  simpa using h2

theorem stat_lt_zero_iff {fs : FS} (hok : okErrnoB fs = true) (p : String) :
    (jsStat fs p < 0) ↔ pathExists fs p = false := by
  unfold jsStat pathExists
  rcases hl : fs.statL.lookup p with _ | r
  · simp [statRVal]
  · rcases r with _ | _ | n
    · simp [statRVal]
    · simp [statRVal]
    · have hn := okErrno_lookup hok hl
      simp only [Option.getD_some, statRVal]
      constructor
      · intro _; trivial
      · intro _
        split <;> omega

theorem stat_lt_one_iff {fs : FS} (hok : okErrnoB fs = true) (p : String) :
    (jsStat fs p < 1) ↔ isDirB fs p = false := by
  unfold jsStat isDirB
  rcases hl : fs.statL.lookup p with _ | r
  · simp [statRVal]
  · rcases r with _ | _ | n
    · simp [statRVal]
    · simp [statRVal]
    · have hn := okErrno_lookup hok hl
      simp only [Option.getD_some, statRVal]
      constructor
      · intro _; trivial
      · intro _
        split <;> omega

theorem jsStat_of_isDir {fs : FS} {p : String} (hd : isDirB fs p = true) :
    jsStat fs p = 1 := by
  unfold isDirB at hd
  unfold jsStat
  rcases hl : fs.statL.lookup p with _ | r
  · rw [hl] at hd; simp at hd
  · rw [hl] at hd
    rcases r <;> simp_all [statRVal]

/-! ## Claim C2 -/

theorem resolveLoop_spec {w : World} (hok : okErrnoB w.fs = true) (nm : String) :
    ∀ cands : List String, resolveLoop w nm cands =
      cands.findSome? (fun p =>
        if isDirB w.fs p && pathExists w.fs (pathResolve2 p nm) then
          some (pathResolve2 p nm)
        else none) := by
  intro cands
  induction cands with
  | nil => simp [resolveLoop]
  | cons p rest ih =>
    rcases hd : isDirB w.fs p with _ | _
    · have h1 : jsStat w.fs p < 1 := (stat_lt_one_iff hok p).mpr hd
      simp [resolveLoop, h1, hd, ih]
    · have h1 : ¬ jsStat w.fs p < 1 := by
        intro hlt
        rw [stat_lt_one_iff hok] at hlt
        simp [hd] at hlt
      rcases he : pathExists w.fs (pathResolve2 p nm) with _ | _
      · have h2 : jsStat w.fs (pathResolve2 p nm) < 0 := (stat_lt_zero_iff hok _).mpr he
        simp [resolveLoop, h1, h2, hd, he, ih]
      · have h2 : ¬ jsStat w.fs (pathResolve2 p nm) < 0 := by
          intro hlt
          rw [stat_lt_zero_iff hok] at hlt
          simp [he] at hlt
        simp [resolveLoop, h1, h2, hd, he]

/-- C2 (amended): the path resolver equals the spec-side resolver in
which the relative/absolute branch succeeds iff the resolved path
exists as a file or a directory (not only as a directory), and the
search loop returns the first candidate that is an existing directory
under which the name exists as a file or a directory. -/
theorem claim_c2_resolve_only_on_existing (w : World) (nm dirname : String)
    (hok : okErrnoB w.fs = true) :
    resolve w nm dirname = resolveSpecAmended w nm dirname := by
  unfold resolve resolveSpecAmended
  split
  · rcases he : pathExists w.fs (pathResolve2 dirname nm) with _ | _
    · have h2 : jsStat w.fs (pathResolve2 dirname nm) < 0 := (stat_lt_zero_iff hok _).mpr he
      simp [h2, he]
    · have h2 : ¬ jsStat w.fs (pathResolve2 dirname nm) < 0 := by
        intro hlt
        rw [stat_lt_zero_iff hok] at hlt
        simp [he] at hlt
      simp [h2, he]
  · exact resolveLoop_spec hok nm _

/-- C2 counterexample: "/a/x" exists as a regular file, not a
directory, yet the resolver succeeds on the relative name "./x" — the
claim says it succeeds iff the path exists and is a directory. -/
theorem claim_c2_counterexample :
    resolve wFile "./x" "/a" = some "/a/x" ∧
    isDirB wFile.fs "/a/x" = false ∧ pathExists wFile.fs "/a/x" = true := by
  refine ⟨by decide, by decide, by decide⟩

theorem claim_c2_witness :
    okErrnoB wFile.fs = true ∧
    resolve wFile "./x" "/a" = resolveSpecAmended wFile "./x" "/a" :=
  ⟨by decide, claim_c2_resolve_only_on_existing wFile "./x" "/a" (by decide)⟩

/-! ## Claim C3 -/

/-- C3 (amended): with an empty package name the resolver skips the
relative branch and returns the first search-path candidate that is
itself an existing directory (resolving the empty name against a
canonical candidate yields the candidate itself), or null when no
candidate is an existing directory. -/
theorem claim_c3_empty_name_first_dir (w : World) (dirname : String)
    (hok : okErrnoB w.fs = true)
    (hc : (getModulePaths w.env dirname).all
      (fun p => pathResolve2 p "" == p) = true) :
    resolve w "" dirname =
      (getModulePaths w.env dirname).find? (fun p => isDirB w.fs p) := by
  unfold resolve
  have hcond : ¬ (0 < "".length ∧
      (("".data.head? = some '.') ∨ ("".data.head? = some '/'))) := by decide
  rw [if_neg hcond]
  have hall := List.all_eq_true.mp hc
  generalize getModulePaths w.env dirname = cands at hall ⊢
  induction cands with
  | nil => simp [resolveLoop]
  | cons p rest ih =>
    have hcp : pathResolve2 p "" = p := by
      have := hall p (List.mem_cons_self _ _)
      simpa using this
    have hrest : ∀ q ∈ rest, (fun p => pathResolve2 p "" == p) q = true :=
      fun q hq => hall q (List.mem_cons_of_mem _ hq)
    rcases hd : isDirB w.fs p with _ | _
    · have h1 : jsStat w.fs p < 1 := (stat_lt_one_iff hok p).mpr hd
      simp [resolveLoop, h1, hd, List.find?]
      exact ih hrest
    · have h1 : ¬ jsStat w.fs p < 1 := by
        intro hlt
        rw [stat_lt_one_iff hok] at hlt
        simp [hd] at hlt
      have hs1 : jsStat w.fs p = 1 := jsStat_of_isDir hd
      have h2 : ¬ jsStat w.fs p < 0 := by
        rw [hs1]
        omega
      simp [resolveLoop, h1, h2, hcp, hd, List.find?]

/-- C3 counterexample: with an empty name the resolver returns the
existing directory "/app/node_modules" instead of "not found". -/
theorem claim_c3_counterexample :
    resolve wEmptyName "" "/app" = some "/app/node_modules" ∧
    isDirB wEmptyName.fs "/app/node_modules" = true := by
  refine ⟨by decide, by decide⟩

theorem claim_c3_witness :
    okErrnoB wEmptyName.fs = true ∧
    (getModulePaths wEmptyName.env "/app").all
      (fun p => pathResolve2 p "" == p) = true ∧
    resolve wEmptyName "" "/app" =
      (getModulePaths wEmptyName.env "/app").find? (fun p => isDirB wEmptyName.fs p) :=
  ⟨by decide, by decide,
   claim_c3_empty_name_first_dir wEmptyName "/app" (by decide) (by decide)⟩

/-! ## Claim C6: the getModulePaths candidate list -/

theorem split_ne_nil (sep : Char) (cs : List Char) : splitOnCharL sep cs ≠ [] := by
  cases cs with
  | nil => simp [splitOnCharL]
  | cons c rest =>
    simp only [splitOnCharL]
    rcases h : splitOnCharL sep rest with _ | ⟨a, t⟩ <;> simp only [h]
    · simp
    · split <;> simp

theorem split_cons_sep (cs : List Char) :
    splitOnCharL '/' ('/' :: cs) = [] :: splitOnCharL '/' cs := by
  simp only [splitOnCharL]
  rcases h : splitOnCharL '/' cs with _ | ⟨a, t⟩
  · exact absurd h (split_ne_nil _ _)
  · simp

theorem split_seg (ds : List Char) (hds : '/' ∉ ds) (cs : List Char) :
    splitOnCharL '/' (ds ++ cs) =
      (ds ++ (splitOnCharL '/' cs).headI) :: (splitOnCharL '/' cs).tail := by
  induction ds with
  | nil =>
    rcases h : splitOnCharL '/' cs with _ | ⟨a, t⟩
    · exact absurd h (split_ne_nil _ _)
    · simp [h]
  | cons d ds ih =>
    have hd : d ≠ '/' := fun hh => hds (by simp [hh])
    have hds' : '/' ∉ ds := fun hh => hds (by simp [hh])
    simp only [List.cons_append, splitOnCharL, List.append_eq]
    rw [ih hds']
    simp [hd]

theorem norm_keep (comps : List (List Char))
    (h : ∀ c ∈ comps, ¬(c = [] ∨ c = ['.']) ∧ ¬(c = ['.', '.'])) :
    ∀ stack, normStack stack comps = stack.reverse ++ comps := by
  induction comps with
  | nil => intro stack; simp [normStack]
  | cons c rest ih =>
    intro stack
    have hc := h c (List.mem_cons_self _ _)
    have hrest : ∀ x ∈ rest, ¬(x = [] ∨ x = ['.']) ∧ ¬(x = ['.', '.']) :=
      fun x hx => h x (List.mem_cons_of_mem _ hx)
    simp only [normStack, if_neg hc.1, if_neg hc.2]
    rw [ih hrest]
    simp

theorem wfSeg_data {s : String} (h : wfSegB s = true) :
    s.data ≠ [] ∧ s.data ≠ ['.'] ∧ s.data ≠ ['.', '.'] ∧ '/' ∉ s.data := by
  unfold wfSegB at h
  simp only [Bool.and_eq_true, Bool.not_eq_true'] at h
  obtain ⟨⟨⟨h1, h2⟩, h3⟩, h4⟩ := h
  refine ⟨?_, ?_, ?_, ?_⟩
  · intro hh
    exact absurd (String.ext (hh.trans rfl)) (by simpa using h1)
  · intro hh
    exact absurd (String.ext (hh.trans rfl)) (by simpa using h2)
  · intro hh
    exact absurd (String.ext (hh.trans rfl)) (by simpa using h3)
  · intro hh
    have : s.data.contains '/' = true := by simpa using hh
    rw [this] at h4
    exact absurd h4 (by simp)

theorem joinAbs_data {segs : List String} (h : segs ≠ []) :
    (joinAbs segs).data = joinAbsChars (segs.map String.data) := by
  rcases segs with _ | ⟨s, rest⟩
  · exact absurd rfl h
  · rfl

theorem split_nosep (l : List Char) (hl : '/' ∉ l) : splitOnCharL '/' l = [l] := by
  have h := split_seg l hl []
  simpa [splitOnCharL] using h

theorem split_joinAbsChars (ls : List (List Char)) (hne : ls ≠ [])
    (hl : ∀ l ∈ ls, '/' ∉ l) :
    splitOnCharL '/' (joinAbsChars ls) = [] :: ls := by
  induction ls with
  | nil => exact absurd rfl hne
  | cons l rest ih =>
    have hll := hl l (List.mem_cons_self _ _)
    have hlr : ∀ x ∈ rest, '/' ∉ x := fun x hx => hl x (List.mem_cons_of_mem _ hx)
    rcases rest with _ | ⟨l2, rest2⟩
    · rw [show joinAbsChars [l] = '/' :: (l ++ []) from rfl, List.append_nil,
        split_cons_sep, split_nosep l hll]
    · rw [show joinAbsChars (l :: l2 :: rest2) =
          '/' :: (l ++ joinAbsChars (l2 :: rest2)) from rfl,
        split_cons_sep, split_seg l hll, ih (by simp) hlr]
      simp

theorem posixNorm_joinAbs {segs : List String} (hne : segs ≠ [])
    (hwf : segs.all wfSegB = true) : posixNorm (joinAbs segs) = joinAbs segs := by
  have hwf' := List.all_eq_true.mp hwf
  apply String.ext
  rw [posixNorm]
  show posixNormChars (joinAbs segs).data = (joinAbs segs).data
  rw [joinAbs_data hne]
  unfold posixNormChars
  rw [split_joinAbsChars (segs.map String.data)
    (by simpa using hne)
    (by
      intro l hlm
      rcases List.mem_map.mp hlm with ⟨s, hs, rfl⟩
      exact (wfSeg_data (hwf' s hs)).2.2.2)]
  rw [show normStack [] ([] :: segs.map String.data) =
      normStack [] (segs.map String.data) by simp [normStack]]
  rw [norm_keep (segs.map String.data)
    (by
      intro c hc
      rcases List.mem_map.mp hc with ⟨s, hs, rfl⟩
      have hd := wfSeg_data (hwf' s hs)
      exact ⟨by simp [hd.1, hd.2.1], hd.2.2.1⟩) []]
  simp only [List.reverse_nil, List.nil_append]
  rcases hm : segs.map String.data with _ | ⟨a, t⟩
  · exact absurd (by simpa using hm) hne
  · rfl

theorem nmRun_neg : ∀ ds : List Char, nmRun (-1) ds = -1 := by
  intro ds
  induction ds with
  | nil => rfl
  | cons c rest ih =>
    simp only [nmRun, nmStep, if_pos rfl]
    exact ih

theorem charToNat_inj : Function.Injective Char.toNat := by
  intro a b h
  cases a; cases b
  simp only [Char.toNat] at h
  congr 1
  exact UInt32.toNat.inj h

theorem nmRun_eq_twelve : ∀ (ds : List Char) (k : Nat), k ≤ 12 →
    (nmRun (Int.ofNat k) ds = 12 ↔ ds.map Char.toNat = nmCodes.drop k) := by
  intro ds
  induction ds with
  | nil =>
    intro k hk
    simp only [nmRun, List.map_nil]
    constructor
    · intro h
      have hke : k = 12 := by
        have h2 : Int.ofNat k = Int.ofNat 12 := h
        exact Int.ofNat.inj h2
      subst hke
      rfl
    · intro h
      have hlen := congrArg List.length h
      simp [nmCodes] at hlen
      have hke : k = 12 := by omega
      subst hke
      rfl
  | cons c rest ih =>
    intro k hk
    rcases Nat.lt_or_ge k 12 with hlt | hge
    · have hget : nmCodes.get? k = some nmCodes[k] := by
        rw [List.get?_eq_getElem?, List.getElem?_eq_getElem (by simp [nmCodes]; omega)]
      have hdrop : nmCodes.drop k = nmCodes[k] :: nmCodes.drop (k + 1) :=
        List.drop_eq_getElem_cons (by simp [nmCodes]; omega)
      have hne : ¬ (Int.ofNat k = -1) := by simp
      have htn : (Int.ofNat k).toNat = k := by simp
      simp only [nmRun, nmStep, if_neg hne, htn, hget]
      rcases hc : (c.toNat = nmCodes[k] : Bool) with _ | _
      · rw [if_neg (by simpa using hc)]
        rw [nmRun_neg]
        simp only [List.map_cons, hdrop]
        constructor
        · intro h; exact absurd h (by decide)
        · intro h
          have h2 := (List.cons.injEq _ _ _ _).mp h
          exact absurd h2.1 (by simpa using hc)
      · rw [if_pos (by simpa using hc)]
        have hadd : (Int.ofNat k) + 1 = Int.ofNat (k + 1) := by simp
        rw [hadd, ih (k + 1) (by omega)]
        simp only [List.map_cons, hdrop]
        constructor
        · intro h
          rw [h, (by simpa using hc : c.toNat = nmCodes[k])]
        · intro h
          exact ((List.cons.injEq _ _ _ _).mp h).2
    · have hk12 : k = 12 := by omega
      subst hk12
      have hstep : nmStep (Int.ofNat 12) c = -1 := rfl
      have hrun : nmRun (Int.ofNat 12) (c :: rest) = nmRun (nmStep (Int.ofNat 12) c) rest :=
        rfl
      rw [hrun, hstep, nmRun_neg]
      simp only [List.map_cons]
      constructor
      · intro h; exact absurd h (by decide)
      · intro h
        have h2 := congrArg List.length h
        simp [nmCodes] at h2

theorem nm_seg_iff (s : String) :
    (nmRun 0 s.data.reverse = 12) ↔ s = "node_modules" := by
  constructor
  · intro h
    have h2 := (nmRun_eq_twelve s.data.reverse 0 (by omega)).mp (by exact_mod_cast h)
    simp only [List.drop_zero] at h2
    have h3 : "node_modules".data.reverse.map Char.toNat = nmCodes := by decide
    have h4 : s.data.reverse = "node_modules".data.reverse :=
      (List.map_injective_iff.mpr charToNat_inj) (h2.trans h3.symm)
    have h5 : s.data = "node_modules".data := by
      have := congrArg List.reverse h4
      simpa using this
    exact String.ext h5
  · intro h
    subst h
    decide

theorem gmpGo_scan : ∀ (ds : List Char), '/' ∉ ds →
    ∀ (tail seg : List Char) (p : Int) (acc : List String),
      gmpGo (ds ++ tail) seg p acc = gmpGo tail (ds.reverse ++ seg) (nmRun p ds) acc := by
  intro ds
  induction ds with
  | nil =>
    intro _ tail seg p acc
    simp [nmRun]
  | cons c rest ih =>
    intro hds tail seg p acc
    have hc : ¬ (c = '/') := fun hh => hds (by simp [hh])
    have hrest : '/' ∉ rest := fun hh => hds (by simp [hh])
    simp only [List.cons_append, gmpGo, if_neg hc, List.append_eq]
    rw [ih hrest]
    simp only [nmRun, List.reverse_cons, List.append_assoc, List.cons_append,
      List.nil_append]

theorem joinAbsChars_append (a b : List (List Char)) :
    joinAbsChars (a ++ b) = joinAbsChars a ++ joinAbsChars b := by
  induction a with
  | nil => simp [joinAbsChars]
  | cons l rest ih => simp [joinAbsChars, ih]

theorem specAncestor_concat (segs : List String) (s : String) :
    specAncestorCandidates (segs ++ [s]) =
      (if s = "node_modules" then []
       else [joinAbs (segs ++ [s]) ++ "/node_modules"]) ++ specAncestorCandidates segs := by
  rcases hsg : segs ++ [s] with _ | ⟨a, t⟩
  · exact absurd hsg (by simp)
  · rw [← hsg]
    have h1 : specAncestorCandidates (segs ++ [s]) =
        (if (segs ++ [s]).getLast? = some "node_modules" then []
         else [joinAbs (segs ++ [s]) ++ "/node_modules"]) ++
          specAncestorCandidates (segs ++ [s]).dropLast := by
      rw [hsg]
      rw [specAncestorCandidates]
    rw [h1, List.getLast?_concat, List.dropLast_concat]
    congr 1
    by_cases hs : s = "node_modules"
    · simp [hs]
    · rw [if_neg (by simpa using fun hh => hs (by simpa using hh)), if_neg hs]

theorem string_append_mk (a b : List Char) : (⟨a⟩ : String) ++ (⟨b⟩ : String) = ⟨a ++ b⟩ := by
  apply String.ext
  simp [String.data_append]

theorem gmp_main : ∀ (segs : List String), segs.all wfSegB = true →
    ∀ acc : List String,
      gmpGo (joinAbsChars (segs.map String.data)).reverse [] 0 acc =
        acc ++ specAncestorCandidates segs := by
  intro segs
  induction segs using List.reverseRecOn with
  | nil =>
    intro _ acc
    simp [joinAbsChars, gmpGo, specAncestorCandidates]
  | append_singleton segs s ih =>
    intro hwf acc
    have hwf' : segs.all wfSegB = true := by
      rw [List.all_eq_true] at hwf ⊢
      exact fun x hx => hwf x (List.mem_append.mpr (Or.inl hx))
    have hwfs : wfSegB s = true :=
      (List.all_eq_true.mp hwf) s (List.mem_append.mpr (Or.inr (by simp)))
    have hsd := wfSeg_data hwfs
    have hrev : (joinAbsChars ((segs ++ [s]).map String.data)).reverse =
        s.data.reverse ++ ('/' :: (joinAbsChars (segs.map String.data)).reverse) := by
      rw [List.map_append, joinAbsChars_append]
      show (joinAbsChars (segs.map String.data) ++ joinAbsChars [s.data]).reverse = _
      rw [show joinAbsChars [s.data] = '/' :: (s.data ++ []) from rfl, List.append_nil]
      rw [List.reverse_append, List.reverse_cons]
      simp [List.append_assoc]
    rw [hrev]
    have hnoslash : '/' ∉ s.data.reverse := by
      intro hh
      exact hsd.2.2.2 (by simpa using hh)
    rw [gmpGo_scan s.data.reverse hnoslash]
    simp only [List.reverse_reverse, List.append_nil]
    rw [show gmpGo ('/' :: (joinAbsChars (segs.map String.data)).reverse) s.data
          (nmRun 0 s.data.reverse) acc =
        gmpGo (joinAbsChars (segs.map String.data)).reverse [] 0
          (if nmRun 0 s.data.reverse ≠ 12 then
            acc ++ [⟨(joinAbsChars (segs.map String.data)).reverse.reverse ++
              '/' :: (s.data ++ '/' :: "node_modules".data)⟩]
          else acc) from by rw [gmpGo]; simp]
    rw [ih hwf']
    rw [specAncestor_concat]
    by_cases hs : s = "node_modules"
    · subst hs
      rw [if_neg (by decide : ¬ (nmRun 0 ("node_modules" : String).data.reverse ≠ 12))]
      simp
    · have h12 : nmRun 0 s.data.reverse ≠ 12 := fun hh => hs ((nm_seg_iff s).mp hh)
      rw [if_pos h12, if_neg hs]
      simp only [List.reverse_reverse]
      have hpush : (⟨joinAbsChars (segs.map String.data) ++
            '/' :: (s.data ++ '/' :: "node_modules".data)⟩ : String) =
          joinAbs (segs ++ [s]) ++ "/node_modules" := by
        apply String.ext
        rw [String.data_append, joinAbs_data (by simp)]
        rw [List.map_append]
        simp only [List.map_cons, List.map_nil]
        rw [joinAbsChars_append]
        rw [show joinAbsChars [s.data] = '/' :: (s.data ++ []) from rfl, List.append_nil]
        simp [List.append_assoc]
      rw [hpush]
      simp [List.append_assoc]

theorem globalPaths_decomp (env : Env) :
    globalPaths env =
      specNodePathEntries env ++ specHomeLegacy env ++ [specPrefixLibNode env] := by
  unfold globalPaths specNodePathEntries specHomeLegacy specPrefixLibNode
  rcases env with ⟨h, npath, ex⟩
  rcases h with _ | hh <;> rcases npath with _ | nn <;> simp <;> split_ifs <;> simp

theorem joinAbs_head {segs : List String} (hne : segs ≠ []) :
    (joinAbs segs).data.head? = some '/' := by
  rcases segs with _ | ⟨s, rest⟩
  · exact absurd rfl hne
  · rfl

theorem posixResolve1_joinAbs {segs : List String} (hne : segs ≠ [])
    (hwf : segs.all wfSegB = true) : posixResolve1 (joinAbs segs) = joinAbs segs := by
  unfold posixResolve1
  rw [if_pos (joinAbs_head hne)]
  exact posixNorm_joinAbs hne hwf

theorem joinAbs_ne_root {segs : List String} (hne : segs ≠ [])
    (hwf : segs.all wfSegB = true) : joinAbs segs ≠ "/" := by
  intro hh
  rcases segs with _ | ⟨s, rest⟩
  · exact absurd rfl hne
  · have hd : (joinAbs (s :: rest)).data = ("/" : String).data := by rw [hh]
    rw [joinAbs_data (by simp)] at hd
    simp only [List.map_cons] at hd
    rw [show joinAbsChars (s.data :: rest.map String.data) =
        '/' :: (s.data ++ joinAbsChars (rest.map String.data)) from rfl] at hd
    have h2 := (List.cons.injEq _ _ _ _).mp hd
    have h3 : s.data = [] := by
      rcases List.append_eq_nil.mp h2.2 with ⟨ha, _⟩
      exact ha
    have hwfs : wfSegB s = true :=
      (List.all_eq_true.mp hwf) s (List.mem_cons_self _ _)
    exact (wfSeg_data hwfs).1 h3

/-- C6: on the POSIX platform, for every canonical absolute starting
directory (rendered from well-formed segments; the root handled
separately), the resolver's candidate list is exactly: one
`<ancestor>/node_modules` per ancestor from deepest to shallowest with
the candidate of an ancestor whose last segment is literally
"node_modules" omitted, then `/node_modules` for the filesystem root,
then the non-empty NODE_PATH entries in order, then the home-directory
legacy library directories, then the installation prefix's lib/node
directory. -/
theorem claim_c6_candidate_list (env : Env) (segs : List String)
    (hne : segs ≠ []) (hwf : segs.all wfSegB = true) :
    getModulePaths env (joinAbs segs) =
      specAncestorCandidates segs ++ ["/node_modules"]
        ++ specNodePathEntries env ++ specHomeLegacy env ++ [specPrefixLibNode env]
    ∧ getModulePaths env "/" =
        "/node_modules" :: (specNodePathEntries env ++ specHomeLegacy env
          ++ [specPrefixLibNode env]) := by
  constructor
  · show (if posixResolve1 (joinAbs segs) = "/" then
        "/node_modules" :: globalPaths env
      else gmpGo (posixResolve1 (joinAbs segs)).data.reverse [] 0 [] ++
        ["/node_modules"] ++ globalPaths env) = _
    rw [posixResolve1_joinAbs hne hwf]
    rw [if_neg (joinAbs_ne_root hne hwf)]
    rw [joinAbs_data hne, gmp_main segs hwf []]
    rw [globalPaths_decomp]
    simp [List.append_assoc]
  · show (if posixResolve1 "/" = "/" then
        "/node_modules" :: globalPaths env
      else gmpGo (posixResolve1 "/").data.reverse [] 0 [] ++
        ["/node_modules"] ++ globalPaths env) = _
    rw [if_pos (by decide)]
    rw [globalPaths_decomp]

theorem claim_c6_witness :
    (["opt", "node_modules", "a"] : List String) ≠ [] ∧
    (["opt", "node_modules", "a"] : List String).all wfSegB = true ∧
    getModulePaths envW (joinAbs ["opt", "node_modules", "a"]) =
      specAncestorCandidates ["opt", "node_modules", "a"] ++ ["/node_modules"]
        ++ specNodePathEntries envW ++ specHomeLegacy envW ++ [specPrefixLibNode envW] :=
  ⟨by decide, by decide,
   (claim_c6_candidate_list envW ["opt", "node_modules", "a"] (by decide) (by decide)).1⟩
